import Mathlib

/-!
Verification of the Gaussian Naive Bayes classifier
(`src/mlpack/methods/naive_bayes/naive_bayes_classifier.hpp`).

The repository ships only the class header; the implementation file
`naive_bayes_classifier_impl.hpp` that it includes is not part of the
sources.  The operations below are therefore modelled from the
specification (`spec.md` sections 3 and 4), which documents the two-pass
batch estimator, the Welford population merge, the vectorized batched
log-likelihood, and the classification facade.

Modelling choices:
* machine doubles are idealized as exact rationals (`ℚ`) for the moment
  estimator, so every "within 1e-8" tolerance claim is settled as exact
  equality;
* transcendental quantities (log-likelihoods, posteriors) live in `ℝ`;
* a `D × N` data matrix is a function `Fin D → Fin N → ℚ`, and a training
  batch is the list of its labeled columns, in column order;
* the mutating C++ `Train`/`Classify` members become state-passing
  functions; `const` members return the model unchanged.
-/

namespace GaussianNB

/-- A query point: a real vector of length `D` (one rational per feature). -/
abbrev Pt (D : ℕ) := Fin D → ℚ

/-- One labeled column of a training batch: the point and its class label.
A label of type `Fin C` encodes the contract that labels lie in `[0, C)`. -/
abbrev LPoint (D C : ℕ) := Pt D × Fin C

/-- Model State (spec section 3): per-class per-feature `means` and
`variances` (`D × C`), class `probabilities` (the priors, length `C`), and
the running sample count `trainingPoints`.  Field names follow the header's
private members. -/
@[ext]
structure NBCModel (D C : ℕ) where
  means : Fin D → Fin C → ℚ
  variances : Fin D → Fin C → ℚ
  probabilities : Fin C → ℚ
  trainingPoints : ℕ

/-- Sample mean of a list of feature values: `(1/n) Σ x`.  Division by zero
(in `ℚ`) makes the mean of an empty class `0`, matching the spec's
"zero-initialized column" for an unseen class. -/
def sampleMean (l : List ℚ) : ℚ := l.sum / (l.length : ℚ)

/-- Sum of squared deviations from the sample mean: `Σ (x − mean)²`
(the `M2` accumulator of the Welford merge). -/
def sqDevSum (l : List ℚ) : ℚ := (l.map (fun x => (x - sampleMean l) ^ 2)).sum

/-- Two-pass sample variance (spec section 4.1, strategy A):
`(1/(n−1)) Σ (x − mean)²` when `n > 1`, else zero. -/
def sampleVar (l : List ℚ) : ℚ :=
  if 1 < l.length then sqDevSum l / ((l.length : ℚ) - 1) else 0

/-- Modelled from the spec: the Welford mean merge of
`naive_bayes_classifier_impl.hpp` (not in the sources), spec section 4.1
strategy B: `μ = μ_old + δ · (n_new / n)` with `δ = μ_new − μ_old`. -/
def mergeMean (muOld muNew nOld nNew : ℚ) : ℚ :=
  muOld + (muNew - muOld) * (nNew / (nOld + nNew))

/-- Modelled from the spec: the Welford variance merge of
`naive_bayes_classifier_impl.hpp` (not in the sources), spec section 4.1
strategy B:
`σ² = (M2_old + M2_new + δ² · n_old·n_new/n) / max (n − 1) 1` where
`M2 = σ² · max (n − 1) 0`. -/
def mergeVar (vOld vNew muOld muNew nOld nNew : ℚ) : ℚ :=
  (vOld * max (nOld - 1) 0 + vNew * max (nNew - 1) 0 +
      (muNew - muOld) ^ 2 * (nOld * nNew / (nOld + nNew))) /
    max (nOld + nNew - 1) 1

/-- The columns of a batch that carry class label `j`, in column order
(the grouping step of the spec's "grouped reduction over the columns"). -/
def classList {D C : ℕ} (b : List (LPoint D C)) (j : Fin C) : List (Pt D) :=
  (b.filter (fun p => decide (p.2 = j))).map Prod.fst

/-- Feature `i` of every class-`j` column of the batch. -/
def featList {D C : ℕ} (b : List (LPoint D C)) (j : Fin C) (i : Fin D) : List ℚ :=
  (classList b j).map (fun x => x i)

/-- The empty-constructor model (header lines 80–81): all parameters
initialized to zero. -/
def initEmpty (D C : ℕ) : NBCModel D C :=
  { means := fun _ _ => 0
    variances := fun _ _ => 0
    probabilities := fun _ => 0
    trainingPoints := 0 }

/-- Modelled from the spec: `Train(data, labels, incremental = false)` of
`naive_bayes_classifier_impl.hpp` (not in the sources), spec section 4.1
strategy A (two-pass batch): per class `j`, `mean_j = (1/n_j) Σ x`,
`variance_j = (1/(n_j−1)) Σ (x − mean_j)²` when `n_j > 1` else zero, and
`priors[j] = n_j / N`. -/
def fitReplaceL {D C : ℕ} (b : List (LPoint D C)) : NBCModel D C :=
  { means := fun i j => sampleMean (featList b j i)
    variances := fun i j => sampleVar (featList b j i)
    probabilities := fun j => ((classList b j).length : ℚ) / (b.length : ℚ)
    trainingPoints := b.length }

/-- Modelled from the spec: `Train(data, labels, incremental = true)` of
`naive_bayes_classifier_impl.hpp` (not in the sources), spec section 4.1
strategy B: the batch's per-class two-pass statistics are merged into the
existing statistics with the Welford combination; the per-class cumulative
count is recovered from the state as `priors[j] · trainingPoints`, and the
priors after the update are `n_j / trainingPoints`. -/
def fitMergeL {D C : ℕ} (m : NBCModel D C) (b : List (LPoint D C)) : NBCModel D C :=
  { means := fun i j =>
      mergeMean (m.means i j) (sampleMean (featList b j i))
        (m.probabilities j * (m.trainingPoints : ℚ)) ((classList b j).length : ℚ)
    variances := fun i j =>
      mergeVar (m.variances i j) (sampleVar (featList b j i))
        (m.means i j) (sampleMean (featList b j i))
        (m.probabilities j * (m.trainingPoints : ℚ)) ((classList b j).length : ℚ)
    probabilities := fun j =>
      (m.probabilities j * (m.trainingPoints : ℚ) + ((classList b j).length : ℚ)) /
        ((m.trainingPoints + b.length : ℕ) : ℚ)
    trainingPoints := m.trainingPoints + b.length }

/-- Modelled from the spec: the single-point `Train(point, label)` of
`naive_bayes_classifier_impl.hpp` (not in the sources), spec section 4.1:
"incremental merge with a one-sample population centered at x". -/
def fitPoint {D C : ℕ} (m : NBCModel D C) (x : Pt D) (lab : Fin C) : NBCModel D C :=
  fitMergeL m [(x, lab)]

/-- Modelled from the spec: the batch `Train` entry point of
`naive_bayes_classifier_impl.hpp` (not in the sources), spec sections 4.1
and 7: Merge mode always succeeds (an empty batch is a no-op); Replace mode
on an empty dataset is fatal and is reported to the caller. -/
def Train {D C : ℕ} (m : NBCModel D C) (b : List (LPoint D C)) (incremental : Bool) :
    Except String (NBCModel D C) :=
  if incremental then .ok (fitMergeL m b)
  else if b.isEmpty then .error "Train(): the given dataset is empty"
  else .ok (fitReplaceL b)

/-- Canonical model fitted to a per-class collection of sample points: the
state whose column `j` carries the two-pass statistics of the list `S j`
and whose priors are `n_j / trainingPoints`.  Every reachable model is of
this form. -/
def modelOf {D C : ℕ} (S : Fin C → List (Pt D)) : NBCModel D C :=
  { means := fun i j => sampleMean ((S j).map (fun x => x i))
    variances := fun i j => sampleVar ((S j).map (fun x => x i))
    probabilities := fun j =>
      ((S j).length : ℚ) / ((∑ j' : Fin C, (S j').length : ℕ) : ℚ)
    trainingPoints := ∑ j' : Fin C, (S j').length }

/-- The models reachable from the zero-initialized constructor through the
training entry points (`Train` on a batch in either mode, and the
single-point overload). -/
inductive Reachable {D C : ℕ} : NBCModel D C → Prop where
  | init : Reachable (initEmpty D C)
  | train (m : NBCModel D C) (b : List (LPoint D C)) (inc : Bool) (m' : NBCModel D C)
      (hm : Reachable m) (h : Train m b inc = .ok m') : Reachable m'
  | point (m : NBCModel D C) (x : Pt D) (lab : Fin C) (hm : Reachable m) :
      Reachable (fitPoint m x lab)

/-- Modelled from the spec: the point overload of `LogLikelihood` in
`naive_bayes_classifier_impl.hpp` (not in the sources), spec section 4.2:
`log π_j − (D/2) log(2π) − (1/2) Σ_i log σ²_ij − (1/2) Σ_i (x_i−μ_ij)²/σ²_ij`. -/
noncomputable def logLikelihoodPoint {D C : ℕ} (m : NBCModel D C) (x : Pt D) (j : Fin C) : ℝ :=
  Real.log ((m.probabilities j : ℚ) : ℝ) - ((D : ℝ) / 2) * Real.log (2 * Real.pi) -
    (1 / 2) * ∑ i : Fin D, Real.log ((m.variances i j : ℚ) : ℝ) -
    (1 / 2) * ∑ i : Fin D, (((x i : ℚ) : ℝ) - ((m.means i j : ℚ) : ℝ)) ^ 2 /
      ((m.variances i j : ℚ) : ℝ)

/-- Modelled from the spec: the batch overload of `LogLikelihood` in
`naive_bayes_classifier_impl.hpp` (not in the sources), spec section 4.2:
the quadratic term of entry `(j, k)` is evaluated through the expanded
matrix formula `(X²)ᵀ(1/V) − 2 Xᵀ(M/V) + 1ᵀ(M²/V)`, with the log-prior and
`Σ log σ²` terms broadcast across the columns. -/
noncomputable def logLikelihoodBatch {D C N : ℕ} (m : NBCModel D C)
    (X : Fin D → Fin N → ℚ) (j : Fin C) (k : Fin N) : ℝ :=
  Real.log ((m.probabilities j : ℚ) : ℝ) - ((D : ℝ) / 2) * Real.log (2 * Real.pi) -
    (1 / 2) * ∑ i : Fin D, Real.log ((m.variances i j : ℚ) : ℝ) -
    (1 / 2) * ((∑ i : Fin D, ((X i k : ℚ) : ℝ) ^ 2 * (1 / ((m.variances i j : ℚ) : ℝ))) -
      2 * (∑ i : Fin D, ((X i k : ℚ) : ℝ) * (((m.means i j : ℚ) : ℝ) / ((m.variances i j : ℚ) : ℝ))) +
      ∑ i : Fin D, ((m.means i j : ℚ) : ℝ) ^ 2 / ((m.variances i j : ℚ) : ℝ))

/-- First-occurrence argmax over the class indices: scan `0, 1, …, C−1`
and replace the running best only on a strict improvement, so the smallest
index wins an exact tie (spec section 4.3). -/
noncomputable def argmaxIdx {C : ℕ} [NeZero C] (f : Fin C → ℝ) : Fin C :=
  (List.finRange C).foldl (fun b j => if f b < f j then j else b) 0

/-- Modelled from the spec: the point `Classify` of
`naive_bayes_classifier_impl.hpp` (not in the sources), spec section 4.3:
the argmax of the point's unnormalized log-posterior, ties broken to the
smallest class index. -/
noncomputable def classifyPoint {D C : ℕ} [NeZero C] (m : NBCModel D C) (x : Pt D) : Fin C :=
  argmaxIdx (fun j => logLikelihoodPoint m x j)

/-- Modelled from the spec: the label part of the batch `Classify` of
`naive_bayes_classifier_impl.hpp` (not in the sources): column `k` gets the
argmax of column `k` of the batched log-likelihood matrix. -/
noncomputable def classifyBatch {D C N : ℕ} [NeZero C] (m : NBCModel D C)
    (X : Fin D → Fin N → ℚ) (k : Fin N) : Fin C :=
  argmaxIdx (fun j => logLikelihoodBatch m X j k)

/-- Largest value of a class-indexed family (the per-column maximum of the
log-sum-exp normalization). -/
noncomputable def maxLogLike {C : ℕ} [NeZero C] (f : Fin C → ℝ) : ℝ :=
  Finset.univ.sup' ⟨0, Finset.mem_univ 0⟩ f

/-- Modelled from the spec: the posterior output of the probability-returning
point `Classify` of `naive_bayes_classifier_impl.hpp` (not in the sources),
spec section 4.2: subtract the maximum log-likelihood, exponentiate, and
normalize to sum 1. -/
noncomputable def posteriorPoint {D C : ℕ} [NeZero C] (m : NBCModel D C) (x : Pt D)
    (j : Fin C) : ℝ :=
  Real.exp (logLikelihoodPoint m x j - maxLogLike (fun j' => logLikelihoodPoint m x j')) /
    ∑ j' : Fin C,
      Real.exp (logLikelihoodPoint m x j' - maxLogLike (fun j'' => logLikelihoodPoint m x j''))

/-- Modelled from the spec: the `C × N` posterior matrix of the
probability-returning batch `Classify` of `naive_bayes_classifier_impl.hpp`
(not in the sources): each column is normalized by the log-sum-exp trick. -/
noncomputable def posteriorBatch {D C N : ℕ} [NeZero C] (m : NBCModel D C)
    (X : Fin D → Fin N → ℚ) (j : Fin C) (k : Fin N) : ℝ :=
  Real.exp (logLikelihoodBatch m X j k - maxLogLike (fun j' => logLikelihoodBatch m X j' k)) /
    ∑ j' : Fin C,
      Real.exp (logLikelihoodBatch m X j' k - maxLogLike (fun j'' => logLikelihoodBatch m X j'' k))

/-- State-passing form of the `const` member `Classify(point)`: the call
returns the (unchanged) model together with the label. -/
noncomputable def classifyPointCall {D C : ℕ} [NeZero C] (m : NBCModel D C) (x : Pt D) :
    NBCModel D C × Fin C :=
  (m, classifyPoint m x)

/-- State-passing form of the `const` member `Classify(point, prediction,
probabilities)`. -/
noncomputable def classifyPointProbsCall {D C : ℕ} [NeZero C] (m : NBCModel D C) (x : Pt D) :
    NBCModel D C × Fin C × (Fin C → ℝ) :=
  (m, classifyPoint m x, fun j => posteriorPoint m x j)

/-- State-passing form of the `const` member `Classify(data, predictions)`. -/
noncomputable def classifyBatchCall {D C N : ℕ} [NeZero C] (m : NBCModel D C)
    (X : Fin D → Fin N → ℚ) : NBCModel D C × (Fin N → Fin C) :=
  (m, fun k => classifyBatch m X k)

/-- State-passing form of the `const` member `Classify(data, predictions,
probabilities)`. -/
noncomputable def classifyBatchProbsCall {D C N : ℕ} [NeZero C] (m : NBCModel D C)
    (X : Fin D → Fin N → ℚ) : NBCModel D C × (Fin N → Fin C) × (Fin C → Fin N → ℝ) :=
  (m, fun k => classifyBatch m X k, fun j k => posteriorBatch m X j k)

/-- State-passing form of the `const` member `LogLikelihood(point, …)`. -/
noncomputable def logLikelihoodPointCall {D C : ℕ} (m : NBCModel D C) (x : Pt D) :
    NBCModel D C × (Fin C → ℝ) :=
  (m, fun j => logLikelihoodPoint m x j)

/-- State-passing form of the `const` member `LogLikelihood(data, …)`. -/
noncomputable def logLikelihoodBatchCall {D C N : ℕ} (m : NBCModel D C)
    (X : Fin D → Fin N → ℚ) : NBCModel D C × (Fin C → Fin N → ℝ) :=
  (m, fun j k => logLikelihoodBatch m X j k)

/-- The per-class Welford update contract of claim C2, for one class `j`
and one feature `i`: with `n_old = priors[j] · trainingPoints` and
`(μ_new, σ²_new, n_new)` the batch's two-pass statistics for class `j`,
Merge-mode training adds the counts, applies the spec's mean and variance
combination featurewise, leaves a class absent from the batch unchanged,
and renormalizes every prior to `n_j / trainingPoints`. -/
def MergeUpdateSpec {D C : ℕ} (m : NBCModel D C) (b : List (LPoint D C))
    (i : Fin D) (j : Fin C) : Prop :=
  ((fitMergeL m b).probabilities j * (((fitMergeL m b).trainingPoints : ℕ) : ℚ)
      = m.probabilities j * ((m.trainingPoints : ℕ) : ℚ) + ((classList b j).length : ℚ)) ∧
  ((fitMergeL m b).means i j
      = m.means i j + (sampleMean (featList b j i) - m.means i j) *
          (((classList b j).length : ℚ) /
            (m.probabilities j * ((m.trainingPoints : ℕ) : ℚ) + ((classList b j).length : ℚ)))) ∧
  ((fitMergeL m b).variances i j
      = (m.variances i j * max (m.probabilities j * ((m.trainingPoints : ℕ) : ℚ) - 1) 0 +
          sampleVar (featList b j i) * max (((classList b j).length : ℚ) - 1) 0 +
          (sampleMean (featList b j i) - m.means i j) ^ 2 *
            (m.probabilities j * ((m.trainingPoints : ℕ) : ℚ) * ((classList b j).length : ℚ) /
              (m.probabilities j * ((m.trainingPoints : ℕ) : ℚ) + ((classList b j).length : ℚ)))) /
        max (m.probabilities j * ((m.trainingPoints : ℕ) : ℚ) + ((classList b j).length : ℚ) - 1) 1) ∧
  (classList b j = [] →
    (fitMergeL m b).means i j = m.means i j ∧ (fitMergeL m b).variances i j = m.variances i j) ∧
  ((fitMergeL m b).probabilities j
      = (m.probabilities j * ((m.trainingPoints : ℕ) : ℚ) + ((classList b j).length : ℚ)) /
        (((fitMergeL m b).trainingPoints : ℕ) : ℚ))

/-! ### Statistics of lists of feature values -/

theorem sampleMean_nil : sampleMean [] = 0 := by
  simp [sampleMean]

theorem sqDevSum_nil : sqDevSum [] = 0 := by
  simp [sqDevSum]

theorem sampleVar_nil : sampleVar [] = 0 := by
  simp [sampleVar]

theorem sum_sq_shift (l : List ℚ) (c : ℚ) :
    (l.map (fun x => (x - c) ^ 2)).sum
      = (l.map (fun x => x ^ 2)).sum - 2 * c * l.sum + (l.length : ℚ) * c ^ 2 := by
  induction l with
  | nil => simp
  | cons a t ih =>
      simp only [List.map_cons, List.sum_cons, List.length_cons, ih]
      push_cast
      ring

theorem sqDevSum_eq (l : List ℚ) :
    sqDevSum l = (l.map (fun x => x ^ 2)).sum - l.sum ^ 2 / (l.length : ℚ) := by
  rcases eq_or_ne l [] with rfl | hl
  · simp [sqDevSum_nil]
  · have hn : ((l.length : ℚ)) ≠ 0 :=
      Nat.cast_ne_zero.mpr (List.length_pos.mpr hl).ne'
    unfold sqDevSum sampleMean
    rw [sum_sq_shift]
    field_simp
    ring

theorem sqDevSum_small (l : List ℚ) (h : l.length ≤ 1) : sqDevSum l = 0 := by
  rcases l with _ | ⟨a, _ | ⟨b, t⟩⟩
  · exact sqDevSum_nil
  · simp [sqDevSum, sampleMean]
  · exfalso
    simp only [List.length_cons] at h
    omega

theorem sampleVar_mul_max (l : List ℚ) :
    sampleVar l * max ((l.length : ℚ) - 1) 0 = sqDevSum l := by
  unfold sampleVar
  by_cases h : 1 < l.length
  · rw [if_pos h]
    have h2 : (2 : ℚ) ≤ (l.length : ℚ) := by exact_mod_cast h
    have hpos : (0 : ℚ) < (l.length : ℚ) - 1 := by linarith
    rw [max_eq_left hpos.le]
    exact div_mul_cancel₀ _ hpos.ne'
  · rw [if_neg h, zero_mul, sqDevSum_small l (by omega)]

theorem sqDevSum_append (l₁ l₂ : List ℚ) :
    sqDevSum (l₁ ++ l₂)
      = sqDevSum l₁ + sqDevSum l₂ +
        (sampleMean l₂ - sampleMean l₁) ^ 2 *
          ((l₁.length : ℚ) * (l₂.length : ℚ) / ((l₁.length : ℚ) + (l₂.length : ℚ))) := by
  rcases eq_or_ne l₁ [] with rfl | h₁
  · simp [sqDevSum_nil]
  rcases eq_or_ne l₂ [] with rfl | h₂
  · simp [sqDevSum_nil]
  have p₁ : (0 : ℚ) < (l₁.length : ℚ) := by
    exact_mod_cast List.length_pos.mpr h₁
  have p₂ : (0 : ℚ) < (l₂.length : ℚ) := by
    exact_mod_cast List.length_pos.mpr h₂
  have hn₁ : ((l₁.length : ℚ)) ≠ 0 := p₁.ne'
  have hn₂ : ((l₂.length : ℚ)) ≠ 0 := p₂.ne'
  have hn : ((l₁.length : ℚ) + (l₂.length : ℚ)) ≠ 0 := by positivity
  rw [sqDevSum_eq, sqDevSum_eq, sqDevSum_eq]
  unfold sampleMean
  simp only [List.map_append, List.sum_append, List.length_append]
  push_cast
  field_simp
  ring

theorem mergeMean_append (l₁ l₂ : List ℚ) :
    mergeMean (sampleMean l₁) (sampleMean l₂) (l₁.length : ℚ) (l₂.length : ℚ)
      = sampleMean (l₁ ++ l₂) := by
  rcases eq_or_ne l₁ [] with rfl | h₁
  · rcases eq_or_ne l₂ [] with rfl | h₂
    · simp [mergeMean, sampleMean_nil]
    · have hn₂ : ((l₂.length : ℚ)) ≠ 0 :=
        Nat.cast_ne_zero.mpr (List.length_pos.mpr h₂).ne'
      simp [mergeMean, sampleMean_nil, div_self hn₂]
  rcases eq_or_ne l₂ [] with rfl | h₂
  · simp [mergeMean, sampleMean_nil]
  have p₁ : (0 : ℚ) < (l₁.length : ℚ) := by
    exact_mod_cast List.length_pos.mpr h₁
  have p₂ : (0 : ℚ) < (l₂.length : ℚ) := by
    exact_mod_cast List.length_pos.mpr h₂
  have hn₁ : ((l₁.length : ℚ)) ≠ 0 := p₁.ne'
  have hn₂ : ((l₂.length : ℚ)) ≠ 0 := p₂.ne'
  have hn : ((l₁.length : ℚ) + (l₂.length : ℚ)) ≠ 0 := by positivity
  unfold mergeMean sampleMean
  simp only [List.sum_append, List.length_append]
  push_cast
  field_simp
  ring

theorem mergeVar_append (l₁ l₂ : List ℚ) :
    mergeVar (sampleVar l₁) (sampleVar l₂) (sampleMean l₁) (sampleMean l₂)
      (l₁.length : ℚ) (l₂.length : ℚ) = sampleVar (l₁ ++ l₂) := by
  unfold mergeVar
  rw [sampleVar_mul_max, sampleVar_mul_max, ← sqDevSum_append]
  unfold sampleVar
  by_cases h : 1 < (l₁ ++ l₂).length
  · rw [if_pos h]
    have hlen : (((l₁ ++ l₂).length : ℚ)) = (l₁.length : ℚ) + (l₂.length : ℚ) := by
      push_cast [List.length_append]
      ring
    have h2 : (2 : ℚ) ≤ ((l₁ ++ l₂).length : ℚ) := by exact_mod_cast h
    rw [← hlen, max_eq_left (by linarith)]
  · rw [if_neg h]
    rw [sqDevSum_small _ (by simpa [List.length_append] using Nat.not_lt.mp h), zero_div]

theorem sampleMean_perm {l l' : List ℚ} (h : l.Perm l') : sampleMean l = sampleMean l' := by
  unfold sampleMean
  rw [h.sum_eq, h.length_eq]

theorem sqDevSum_perm {l l' : List ℚ} (h : l.Perm l') : sqDevSum l = sqDevSum l' := by
  unfold sqDevSum
  rw [sampleMean_perm h]
  exact (h.map _).sum_eq

theorem sampleVar_perm {l l' : List ℚ} (h : l.Perm l') : sampleVar l = sampleVar l' := by
  unfold sampleVar
  rw [h.length_eq, sqDevSum_perm h]

/-! ### Grouping a batch by class -/

theorem classList_nil {D C : ℕ} (j : Fin C) : classList ([] : List (LPoint D C)) j = [] := by
  simp [classList]

theorem classList_cons {D C : ℕ} (p : LPoint D C) (t : List (LPoint D C)) (j : Fin C) :
    classList (p :: t) j = if p.2 = j then p.1 :: classList t j else classList t j := by
  unfold classList
  rw [List.filter_cons]
  by_cases h : p.2 = j
  · simp [h]
  · simp [h]

theorem classList_append {D C : ℕ} (a b : List (LPoint D C)) (j : Fin C) :
    classList (a ++ b) j = classList a j ++ classList b j := by
  simp [classList, List.filter_append]

theorem classList_perm {D C : ℕ} {a b : List (LPoint D C)} (h : a.Perm b) (j : Fin C) :
    (classList a j).Perm (classList b j) :=
  (h.filter _).map _

theorem sum_length_classList {D C : ℕ} (b : List (LPoint D C)) :
    (∑ j : Fin C, (classList b j).length) = b.length := by
  induction b with
  | nil => simp [classList_nil]
  | cons p t ih =>
      have step : ∀ j : Fin C, (classList (p :: t) j).length
          = (classList t j).length + (if p.2 = j then 1 else 0) := by
        intro j
        rw [classList_cons]
        by_cases h : p.2 = j <;> simp [h]
      simp only [step]
      rw [Finset.sum_add_distrib, ih, Finset.sum_ite_eq]
      simp

/-! ### Canonical fitted models -/

theorem modelOf_means {D C : ℕ} (S : Fin C → List (Pt D)) (i : Fin D) (j : Fin C) :
    (modelOf S).means i j = sampleMean ((S j).map (fun x => x i)) := rfl

theorem modelOf_variances {D C : ℕ} (S : Fin C → List (Pt D)) (i : Fin D) (j : Fin C) :
    (modelOf S).variances i j = sampleVar ((S j).map (fun x => x i)) := rfl

theorem modelOf_probabilities {D C : ℕ} (S : Fin C → List (Pt D)) (j : Fin C) :
    (modelOf S).probabilities j
      = ((S j).length : ℚ) / ((∑ j' : Fin C, (S j').length : ℕ) : ℚ) := rfl

theorem modelOf_trainingPoints {D C : ℕ} (S : Fin C → List (Pt D)) :
    (modelOf S).trainingPoints = ∑ j' : Fin C, (S j').length := rfl

theorem count_modelOf {D C : ℕ} (S : Fin C → List (Pt D)) (j : Fin C) :
    (modelOf S).probabilities j * (((modelOf S).trainingPoints : ℕ) : ℚ)
      = ((S j).length : ℚ) := by
  rw [modelOf_probabilities, modelOf_trainingPoints]
  by_cases h : (∑ j' : Fin C, (S j').length) = 0
  · have hj : (S j).length = 0 := Finset.sum_eq_zero_iff.mp h j (Finset.mem_univ j)
    simp [h, hj]
  · exact div_mul_cancel₀ _ (Nat.cast_ne_zero.mpr h)

theorem fitMergeL_means {D C : ℕ} (m : NBCModel D C) (b : List (LPoint D C))
    (i : Fin D) (j : Fin C) :
    (fitMergeL m b).means i j
      = mergeMean (m.means i j) (sampleMean (featList b j i))
          (m.probabilities j * ((m.trainingPoints : ℕ) : ℚ)) ((classList b j).length : ℚ) := rfl

theorem fitMergeL_variances {D C : ℕ} (m : NBCModel D C) (b : List (LPoint D C))
    (i : Fin D) (j : Fin C) :
    (fitMergeL m b).variances i j
      = mergeVar (m.variances i j) (sampleVar (featList b j i))
          (m.means i j) (sampleMean (featList b j i))
          (m.probabilities j * ((m.trainingPoints : ℕ) : ℚ)) ((classList b j).length : ℚ) := rfl

theorem fitMergeL_probabilities {D C : ℕ} (m : NBCModel D C) (b : List (LPoint D C))
    (j : Fin C) :
    (fitMergeL m b).probabilities j
      = (m.probabilities j * ((m.trainingPoints : ℕ) : ℚ) + ((classList b j).length : ℚ)) /
        (((m.trainingPoints + b.length : ℕ)) : ℚ) := rfl

theorem fitMergeL_trainingPoints {D C : ℕ} (m : NBCModel D C) (b : List (LPoint D C)) :
    (fitMergeL m b).trainingPoints = m.trainingPoints + b.length := rfl

theorem fitReplaceL_probabilities {D C : ℕ} (b : List (LPoint D C)) (j : Fin C) :
    (fitReplaceL b).probabilities j = ((classList b j).length : ℚ) / (b.length : ℚ) := rfl

theorem fitReplaceL_trainingPoints {D C : ℕ} (b : List (LPoint D C)) :
    (fitReplaceL b).trainingPoints = b.length := rfl

theorem mergeMean_append_map {D : ℕ} (l₁ l₂ : List (Pt D)) (i : Fin D) :
    mergeMean (sampleMean (l₁.map (fun x => x i))) (sampleMean (l₂.map (fun x => x i)))
      (l₁.length : ℚ) (l₂.length : ℚ) = sampleMean ((l₁ ++ l₂).map (fun x => x i)) := by
  rw [List.map_append, ← mergeMean_append, List.length_map, List.length_map]

theorem mergeVar_append_map {D : ℕ} (l₁ l₂ : List (Pt D)) (i : Fin D) :
    mergeVar (sampleVar (l₁.map (fun x => x i))) (sampleVar (l₂.map (fun x => x i)))
      (sampleMean (l₁.map (fun x => x i))) (sampleMean (l₂.map (fun x => x i)))
      (l₁.length : ℚ) (l₂.length : ℚ) = sampleVar ((l₁ ++ l₂).map (fun x => x i)) := by
  rw [List.map_append, ← mergeVar_append, List.length_map, List.length_map]

theorem fitMergeL_modelOf {D C : ℕ} (S : Fin C → List (Pt D)) (b : List (LPoint D C)) :
    fitMergeL (modelOf S) b = modelOf (fun j => S j ++ classList b j) := by
  have hsum : (∑ j' : Fin C, ((S j').length + (classList b j').length))
      = (∑ j' : Fin C, (S j').length) + b.length := by
    rw [Finset.sum_add_distrib, sum_length_classList]
  refine NBCModel.ext ?_ ?_ ?_ ?_
  · funext i j
    simp only [fitMergeL_means, modelOf_means, count_modelOf, featList]
    exact mergeMean_append_map (S j) (classList b j) i
  · funext i j
    simp only [fitMergeL_variances, modelOf_variances, modelOf_means, count_modelOf, featList]
    exact mergeVar_append_map (S j) (classList b j) i
  · funext j
    rw [fitMergeL_probabilities, count_modelOf]
    simp only [modelOf_probabilities, modelOf_trainingPoints, List.length_append, hsum]
    push_cast
    ring
  · simp only [fitMergeL_trainingPoints, modelOf_trainingPoints, List.length_append]
    rw [hsum]

theorem fitReplaceL_eq {D C : ℕ} (b : List (LPoint D C)) :
    fitReplaceL b = modelOf (fun j => classList b j) := by
  refine NBCModel.ext rfl rfl ?_ ?_
  · funext j
    simp only [fitReplaceL_probabilities, modelOf_probabilities, sum_length_classList]
  · simp only [fitReplaceL_trainingPoints, modelOf_trainingPoints, sum_length_classList]

theorem initEmpty_eq {D C : ℕ} : initEmpty D C = modelOf (fun _ => ([] : List (Pt D))) := by
  refine NBCModel.ext ?_ ?_ ?_ ?_
  · funext i j
    simp [initEmpty, modelOf_means, sampleMean_nil]
  · funext i j
    simp [initEmpty, modelOf_variances, sampleVar_nil]
  · funext j
    simp [initEmpty, modelOf_probabilities]
  · simp [initEmpty, modelOf_trainingPoints]

theorem modelOf_perm {D C : ℕ} {S S' : Fin C → List (Pt D)}
    (h : ∀ j, (S j).Perm (S' j)) : modelOf S = modelOf S' := by
  have hlen : ∀ j, (S j).length = (S' j).length := fun j => (h j).length_eq
  have hsum : (∑ j' : Fin C, (S j').length) = ∑ j' : Fin C, (S' j').length :=
    Finset.sum_congr rfl fun j' _ => hlen j'
  refine NBCModel.ext ?_ ?_ ?_ ?_
  · funext i j
    simp only [modelOf_means]
    exact sampleMean_perm ((h j).map _)
  · funext i j
    simp only [modelOf_variances]
    exact sampleVar_perm ((h j).map _)
  · funext j
    simp only [modelOf_probabilities, hlen, hsum]
  · simp only [modelOf_trainingPoints, hsum]

theorem foldl_fitMergeL_modelOf {D C : ℕ} (bs : List (List (LPoint D C))) :
    ∀ S : Fin C → List (Pt D),
      bs.foldl fitMergeL (modelOf S) = modelOf (fun j => S j ++ classList bs.flatten j) := by
  induction bs with
  | nil =>
      intro S
      simp [classList_nil]
  | cons b bs ih =>
      intro S
      rw [List.foldl_cons, fitMergeL_modelOf, ih]
      congr 1
      funext j
      rw [List.flatten_cons, classList_append, List.append_assoc]

theorem reachable_modelOf {D C : ℕ} {m : NBCModel D C} (hm : Reachable m) :
    ∃ S : Fin C → List (Pt D), m = modelOf S := by
  induction hm with
  | init => exact ⟨fun _ => [], initEmpty_eq⟩
  | train m₁ b inc m' hm₁ h ih =>
      obtain ⟨S, rfl⟩ := ih
      cases inc with
      | true =>
          obtain rfl : fitMergeL (modelOf S) b = m' := by simpa [Train] using h
          exact ⟨fun j => S j ++ classList b j, fitMergeL_modelOf S b⟩
      | false =>
          by_cases hb : b.isEmpty
          · exfalso
            simp [Train, hb] at h
          · obtain rfl : fitReplaceL b = m' := by simpa [Train, hb] using h
            exact ⟨fun j => classList b j, fitReplaceL_eq b⟩
  | point m₁ x lab hm₁ ih =>
      obtain ⟨S, rfl⟩ := ih
      exact ⟨fun j => S j ++ classList [(x, lab)] j, fitMergeL_modelOf S [(x, lab)]⟩

/-! ### Claims about training -/

/-- C1: for every dataset `b` with labels in `[0, C)` and every partition of
its columns into batches `bs`, training a fresh model with Replace-mode batch
training on the whole dataset and training a zero-initialized model of the
same `D` and `C` by successive Merge-mode batch training on the pieces
produce identical `means`, `variances`, `priors`, and `trainingPoints`
(idealized rational arithmetic makes the `1e-8` per-element tolerance an
exact equality of models). -/
theorem replace_eq_incremental_merge {D C : ℕ} (b : List (LPoint D C))
    (bs : List (List (LPoint D C))) (hb : b ≠ []) (hp : bs.flatten.Perm b) :
    Train (initEmpty D C) b false = .ok (bs.foldl fitMergeL (initEmpty D C)) := by
  have hbe : b.isEmpty = false := by
    cases b
    · exact absurd rfl hb
    · rfl
  rw [initEmpty_eq, foldl_fitMergeL_modelOf]
  have h2 : modelOf (fun j => ([] : List (Pt D)) ++ classList bs.flatten j)
      = modelOf (fun j => classList b j) :=
    modelOf_perm fun j => by simpa using classList_perm hp j
  rw [h2, ← fitReplaceL_eq]
  simp [Train, hbe]

/-- C2: on any reachable model, Merge-mode training adds the per-class
cumulative counts, combines means and variances featurewise by the spec's
numerically stable population-moment formulas (with
`n_old = priors[j] · trainingPoints`), leaves a class absent from the batch
unchanged, and makes each prior the class's cumulative count divided by the
updated `trainingPoints`. -/
theorem merge_matches_welford {D C : ℕ} (m : NBCModel D C) (hm : Reachable m)
    (b : List (LPoint D C)) (i : Fin D) (j : Fin C) : MergeUpdateSpec m b i j := by
  obtain ⟨S, rfl⟩ := reachable_modelOf hm
  refine ⟨?_, rfl, rfl, ?_, rfl⟩
  · rw [fitMergeL_modelOf, count_modelOf, count_modelOf]
    push_cast [List.length_append]
    ring
  · intro h0
    constructor
    · simp [fitMergeL_means, mergeMean, featList, h0, sampleMean_nil]
    · rw [fitMergeL_modelOf]
      simp only [modelOf_variances]
      rw [h0, List.append_nil]

/-- C5: before any training the priors vector is the zero vector, and on
every reachable model that has incorporated at least one sample (through
Replace-mode, Merge-mode, or single-point training) the priors are
non-negative and sum exactly to 1. -/
theorem priors_zero_then_normalized {D C : ℕ} :
    (∀ j : Fin C, (initEmpty D C).probabilities j = 0) ∧
    ∀ m : NBCModel D C, Reachable m → 0 < m.trainingPoints →
      (∀ j, 0 ≤ m.probabilities j) ∧ (∑ j : Fin C, m.probabilities j) = 1 := by
  refine ⟨fun j => rfl, ?_⟩
  intro m hm htp
  obtain ⟨S, rfl⟩ := reachable_modelOf hm
  have h0 : 0 < ∑ j' : Fin C, (S j').length := by
    simpa [modelOf_trainingPoints] using htp
  have htp' : (0 : ℚ) < ((∑ j' : Fin C, (S j').length : ℕ) : ℚ) := by exact_mod_cast h0
  constructor
  · intro j
    rw [modelOf_probabilities]
    positivity
  · simp only [modelOf_probabilities]
    rw [← Finset.sum_div, ← Nat.cast_sum]
    exact div_self htp'.ne'

/-- C8: folding the columns of a batch into a reachable model by single-point
training, in any order, produces exactly the same model (means, variances,
priors, trainingPoints) as one Merge-mode batch training on the batch. -/
theorem foldPoints_eq_merge {D C : ℕ} (m : NBCModel D C) (hm : Reachable m)
    (b b' : List (LPoint D C)) (hp : b'.Perm b) :
    b'.foldl (fun acc p => fitPoint acc p.1 p.2) m = fitMergeL m b := by
  obtain ⟨S, rfl⟩ := reachable_modelOf hm
  have h1 : b'.foldl (fun acc p => fitPoint acc p.1 p.2) (modelOf S)
      = (b'.map (fun p => [p])).foldl fitMergeL (modelOf S) := by
    rw [List.foldl_map]
    rfl
  have hj : (b'.map (fun p => [p])).flatten = b' := by
    clear h1 hp hm
    induction b' with
    | nil => simp
    | cons p t ih => simp [ih]
  rw [h1, foldl_fitMergeL_modelOf, fitMergeL_modelOf]
  simp only [hj]
  exact modelOf_perm fun j => (List.Perm.refl _).append (classList_perm hp j)

/-- C9: training a reachable model on an empty batch (zero columns) is a
no-op in Merge mode and fails with an error reported to the caller in
Replace mode (the caller's model being untouched, no new state is
produced). -/
theorem empty_batch_behavior {D C : ℕ} (m : NBCModel D C) (hm : Reachable m) :
    Train m ([] : List (LPoint D C)) true = .ok m ∧
    ∃ e, Train m ([] : List (LPoint D C)) false = .error e := by
  constructor
  · obtain ⟨S, rfl⟩ := reachable_modelOf hm
    have h : modelOf (fun j => S j ++ classList ([] : List (LPoint D C)) j) = modelOf S := by
      simp [classList_nil]
    simp [Train, fitMergeL_modelOf, h]
  · exact ⟨_, rfl⟩

/-! ### Claims about classification -/

theorem quad_expand {D : ℕ} (x mu v : Fin D → ℝ) :
    (∑ i : Fin D, (x i - mu i) ^ 2 / v i)
      = (∑ i : Fin D, (x i) ^ 2 * (1 / v i)) - 2 * (∑ i : Fin D, x i * (mu i / v i)) +
        ∑ i : Fin D, (mu i) ^ 2 / v i := by
  rw [Finset.mul_sum, ← Finset.sum_sub_distrib, ← Finset.sum_add_distrib]
  refine Finset.sum_congr rfl fun i _ => ?_
  ring

theorem logLikelihoodBatch_eq_point {D C N : ℕ} (m : NBCModel D C) (X : Fin D → Fin N → ℚ)
    (j : Fin C) (k : Fin N) :
    logLikelihoodBatch m X j k = logLikelihoodPoint m (fun i => X i k) j := by
  have h : (∑ i : Fin D, (((X i k : ℚ) : ℝ) - ((m.means i j : ℚ) : ℝ)) ^ 2 /
        ((m.variances i j : ℚ) : ℝ))
      = (∑ i : Fin D, ((X i k : ℚ) : ℝ) ^ 2 * (1 / ((m.variances i j : ℚ) : ℝ))) -
        2 * (∑ i : Fin D, ((X i k : ℚ) : ℝ) *
          (((m.means i j : ℚ) : ℝ) / ((m.variances i j : ℚ) : ℝ))) +
        ∑ i : Fin D, ((m.means i j : ℚ) : ℝ) ^ 2 / ((m.variances i j : ℚ) : ℝ) :=
    quad_expand _ _ _
  simp only [logLikelihoodBatch, logLikelihoodPoint]
  rw [h]

theorem argmax_fold_step {C : ℕ} (f : Fin C → ℝ) (l : List (Fin C)) :
    ∀ r : Fin C,
      l.Pairwise (fun a b => a < b) →
      (∀ j, j ∉ l → f j ≤ f r) →
      (∀ j, j ∉ l → f j = f r → r ≤ j) →
      (∀ x ∈ l, r ≤ x) →
      (∀ j, f j ≤ f (l.foldl (fun b j => if f b < f j then j else b) r)) ∧
      (∀ j, f j = f (l.foldl (fun b j => if f b < f j then j else b) r) →
        (l.foldl (fun b j => if f b < f j then j else b) r) ≤ j) := by
  induction l with
  | nil =>
      intro r _ h1 h2 _
      exact ⟨fun j => h1 j (List.not_mem_nil j), fun j hj => h2 j (List.not_mem_nil j) hj⟩
  | cons a t ih =>
      intro r hp h1 h2 h3
      rw [List.foldl_cons]
      obtain ⟨hpa, hpt⟩ := List.pairwise_cons.mp hp
      by_cases hra : f r < f a
      · rw [if_pos hra]
        refine ih a hpt ?_ ?_ ?_
        · intro j hj
          by_cases hja : j = a
          · exact le_of_eq (congrArg f hja)
          · exact le_trans (h1 j (by simp [List.mem_cons, hja, hj])) hra.le
        · intro j hj hfeq
          by_cases hja : j = a
          · exact hja.ge
          · exact absurd hfeq
              (ne_of_lt (lt_of_le_of_lt (h1 j (by simp [List.mem_cons, hja, hj])) hra))
        · exact fun x hx => (hpa x hx).le
      · rw [if_neg hra]
        have hle : f a ≤ f r := not_lt.mp hra
        refine ih r hpt ?_ ?_ ?_
        · intro j hj
          by_cases hja : j = a
          · exact le_trans (le_of_eq (congrArg f hja)) hle
          · exact h1 j (by simp [List.mem_cons, hja, hj])
        · intro j hj hfeq
          by_cases hja : j = a
          · subst hja
            exact h3 j (List.mem_cons_self j t)
          · exact h2 j (by simp [List.mem_cons, hja, hj]) hfeq
        · exact fun x hx => h3 x (List.mem_cons_of_mem a hx)

theorem argmaxIdx_spec {C : ℕ} [NeZero C] (f : Fin C → ℝ) :
    (∀ j, f j ≤ f (argmaxIdx f)) ∧ (∀ j, f j = f (argmaxIdx f) → argmaxIdx f ≤ j) := by
  unfold argmaxIdx
  refine argmax_fold_step f (List.finRange C) 0 ?_ ?_ ?_ ?_
  · exact List.pairwise_lt_finRange C
  · exact fun j hj => absurd (List.mem_finRange j) hj
  · exact fun j hj _ => absurd (List.mem_finRange j) hj
  · exact fun x _ => Fin.zero_le' x

/-- C4: the label returned by the point `Classify` maximizes the point's
unnormalized log-posterior, and any class achieving the same log-posterior
has an index at least as large — i.e. `Classify` returns the smallest
argmax index, breaking exact ties toward the smaller class index. -/
theorem classify_is_least_argmax {D C : ℕ} [NeZero C] (m : NBCModel D C) (x : Pt D) :
    (∀ j, logLikelihoodPoint m x j ≤ logLikelihoodPoint m x (classifyPoint m x)) ∧
    (∀ j, logLikelihoodPoint m x j = logLikelihoodPoint m x (classifyPoint m x) →
      classifyPoint m x ≤ j) :=
  argmaxIdx_spec (fun j => logLikelihoodPoint m x j)

/-- C6: the label the batch `Classify` overload stores at position `k`
equals the label returned by the single-point `Classify` applied to
column `k` of the batch. -/
theorem batch_classify_eq_point {D C N : ℕ} [NeZero C] (m : NBCModel D C)
    (X : Fin D → Fin N → ℚ) (k : Fin N) :
    classifyBatch m X k = classifyPoint m (fun i => X i k) := by
  unfold classifyBatch classifyPoint
  congr 1
  funext j
  exact logLikelihoodBatch_eq_point m X j k

/-- C3: in the `C × N` posterior matrix produced by the probability-returning
batch `Classify`, column `k` is exactly the normalized class-posterior
vector that the point overload computes for column `k` of the data. -/
theorem batch_posterior_eq_point {D C N : ℕ} [NeZero C] (m : NBCModel D C)
    (X : Fin D → Fin N → ℚ) (j : Fin C) (k : Fin N) :
    posteriorBatch m X j k = posteriorPoint m (fun i => X i k) j := by
  simp only [posteriorBatch, posteriorPoint, logLikelihoodBatch_eq_point]

theorem expNorm_nonneg_sum_one {C : ℕ} [NeZero C] (g : Fin C → ℝ) (c : ℝ) :
    (∀ j, 0 ≤ Real.exp (g j - c) / ∑ j' : Fin C, Real.exp (g j' - c)) ∧
    (∑ j : Fin C, Real.exp (g j - c) / ∑ j' : Fin C, Real.exp (g j' - c)) = 1 := by
  have hpos : (0 : ℝ) < ∑ j' : Fin C, Real.exp (g j' - c) :=
    Finset.sum_pos (fun j _ => Real.exp_pos _) ⟨0, Finset.mem_univ 0⟩
  constructor
  · intro j
    exact div_nonneg (Real.exp_pos _).le hpos.le
  · rw [← Finset.sum_div]
    exact div_self hpos.ne'

/-- C7: every posterior vector returned by the probability-returning
overloads — the point overload's vector and each column of the batch
overload's matrix, both obtained by subtracting the per-column maximum
log-likelihood, exponentiating, and normalizing — has non-negative entries
that sum to 1. -/
theorem posterior_nonneg_sums_one {D C N : ℕ} [NeZero C] (m : NBCModel D C) (x : Pt D)
    (X : Fin D → Fin N → ℚ) (k : Fin N) :
    (∀ j, 0 ≤ posteriorPoint m x j) ∧ ((∑ j : Fin C, posteriorPoint m x j) = 1) ∧
    (∀ j, 0 ≤ posteriorBatch m X j k) ∧ ((∑ j : Fin C, posteriorBatch m X j k) = 1) := by
  obtain ⟨h1, h2⟩ := expNorm_nonneg_sum_one (fun j => logLikelihoodPoint m x j)
    (maxLogLike (fun j' => logLikelihoodPoint m x j'))
  obtain ⟨h3, h4⟩ := expNorm_nonneg_sum_one (fun j => logLikelihoodBatch m X j k)
    (maxLogLike (fun j' => logLikelihoodBatch m X j' k))
  exact ⟨h1, h2, h3, h4⟩

/-- C10: every `Classify` overload and both `LogLikelihood` routines are
`const`: in state-passing form each call returns the model it was given,
so `means`, `variances`, `probabilities`, and `trainingPoints` are
identical before and after the call. -/
theorem classify_leaves_model_unchanged {D C N : ℕ} [NeZero C] (m : NBCModel D C)
    (x : Pt D) (X : Fin D → Fin N → ℚ) :
    (classifyPointCall m x).1 = m ∧ (classifyPointProbsCall m x).1 = m ∧
    (classifyBatchCall m X).1 = m ∧ (classifyBatchProbsCall m X).1 = m ∧
    (logLikelihoodPointCall m x).1 = m ∧ (logLikelihoodBatchCall m X).1 = m :=
  ⟨rfl, rfl, rfl, rfl, rfl, rfl⟩

/-! ### Concrete witnesses -/

theorem replace_eq_incremental_merge_w :
    Train (initEmpty 1 2)
        [((fun _ => (1 : ℚ)), (0 : Fin 2)), ((fun _ => (4 : ℚ)), (1 : Fin 2))] false
      = .ok ([[((fun _ => (1 : ℚ)), (0 : Fin 2))], [((fun _ => (4 : ℚ)), (1 : Fin 2))]].foldl
          fitMergeL (initEmpty 1 2)) :=
  replace_eq_incremental_merge _ _ (List.cons_ne_nil _ _) (by simp)

theorem merge_matches_welford_w :
    MergeUpdateSpec (initEmpty 1 1) [((fun _ => (2 : ℚ)), (0 : Fin 1))] 0 0 :=
  merge_matches_welford (initEmpty 1 1) Reachable.init _ 0 0

theorem batch_posterior_eq_point_w :
    posteriorBatch (initEmpty 1 2) (fun _ (_ : Fin 1) => (0 : ℚ)) 0 0
      = posteriorPoint (initEmpty 1 2) (fun _ => (0 : ℚ)) 0 :=
  batch_posterior_eq_point (initEmpty 1 2) (fun _ _ => (0 : ℚ)) 0 0

theorem classify_is_least_argmax_w :
    logLikelihoodPoint (initEmpty 1 2) (fun _ => (0 : ℚ)) 1
      ≤ logLikelihoodPoint (initEmpty 1 2) (fun _ => (0 : ℚ))
          (classifyPoint (initEmpty 1 2) (fun _ => (0 : ℚ))) :=
  (classify_is_least_argmax (initEmpty 1 2) (fun _ => (0 : ℚ))).1 1

theorem priors_zero_then_normalized_w :
    0 < (fitPoint (initEmpty 1 2) (fun _ => (5 : ℚ)) 0).trainingPoints ∧
    (∑ j : Fin 2, (fitPoint (initEmpty 1 2) (fun _ => (5 : ℚ)) 0).probabilities j) = 1 :=
  ⟨by decide,
    ((priors_zero_then_normalized).2 _ (Reachable.point _ _ _ Reachable.init) (by decide)).2⟩

theorem batch_classify_eq_point_w :
    classifyBatch (initEmpty 1 2) (fun _ (_ : Fin 1) => (0 : ℚ)) 0
      = classifyPoint (initEmpty 1 2) (fun _ => (0 : ℚ)) :=
  batch_classify_eq_point (initEmpty 1 2) (fun _ _ => (0 : ℚ)) 0

theorem posterior_nonneg_sums_one_w :
    (∑ j : Fin 2, posteriorPoint (initEmpty 1 2) (fun _ => (0 : ℚ)) j) = 1 :=
  (posterior_nonneg_sums_one (initEmpty 1 2) (fun _ => (0 : ℚ))
    (fun _ (_ : Fin 1) => (0 : ℚ)) 0).2.1

theorem foldPoints_eq_merge_w :
    [((fun _ => (2 : ℚ)), (1 : Fin 2)), ((fun _ => (1 : ℚ)), (0 : Fin 2))].foldl
        (fun acc p => fitPoint acc p.1 p.2) (initEmpty 1 2)
      = fitMergeL (initEmpty 1 2)
          [((fun _ => (1 : ℚ)), (0 : Fin 2)), ((fun _ => (2 : ℚ)), (1 : Fin 2))] :=
  foldPoints_eq_merge _ Reachable.init _ _ (List.Perm.swap _ _ _)

theorem empty_batch_behavior_w :
    Train (initEmpty 1 2) ([] : List (LPoint 1 2)) true = .ok (initEmpty 1 2) :=
  (empty_batch_behavior (initEmpty 1 2) Reachable.init).1

theorem classify_leaves_model_unchanged_w :
    (classifyPointCall (initEmpty 1 2) (fun _ => (0 : ℚ))).1 = initEmpty 1 2 :=
  (classify_leaves_model_unchanged (N := 1) (initEmpty 1 2) (fun _ => (0 : ℚ))
    (fun _ _ => (0 : ℚ))).1

end GaussianNB
